import Mathlib

/-!
Shallow embedding of `src/ts_hashmap.c`, a fixed-capacity chained hash map
from C `int` keys to C `int` values, together with theorems checking the
natural-language specification against it.

Modelling conventions:
* C `int` values are modelled as `Int`; the cast `(unsigned int) key` in
  `put` is modelled as `key % 4294967296` (the value of the cast for any
  in-range `int`).
* `INT_MAX` is the sentinel `2147483647` returned by `get`/`put`/`del`.
* An out-of-bounds table access (`map->table[index]` with `index` outside
  `[0, capacity)`), which is undefined behavior in C, is modelled by the
  operation returning `none`; a defined execution returns
  `some (returnValue, newMapState)`.
* The global mutex serialises every operation, so each operation is
  modelled as a sequential function from a map state to a result and a new
  map state; operation sequences are folds of these functions.
* `size` and `numOps` are C `int` fields; they are modelled as unbounded
  `Int` (no claim in scope exercises counter overflow).
-/

namespace Ts

/-- `INT_MAX` from `<limits.h>`: the not-found sentinel of the C code. -/
def INT_MAX : Int := 2147483647

/-- `2^32`: modulus of the `(unsigned int)` cast in `put` (line 70). -/
def UINT_RANGE : Int := 4294967296

/-- `ts_entry_t`: one chain node holding a key and a value (the `next`
pointer is modelled by the position in a `List`). -/
structure Entry where
  key : Int
  value : Int
deriving Repr, DecidableEq

/-- A bucket's chain: the list of entries reachable from a table slot. -/
abbrev Chain := List Entry

/-- `ts_hashmap_t`: the table of bucket chains plus the `size` and
`numOps` counters.  The `capacity` field always equals the table length. -/
structure HMap where
  table : List Chain
  size : Int
  numOps : Int
deriving Repr, DecidableEq

/-- The `capacity` field of the struct, as the (signed) length of the
table. -/
def capacity (m : HMap) : Int := m.table.length

/-- Reading `table[i]`: `some` chain when `0 ≤ i < length` (a defined C
access), `none` for an out-of-bounds access (undefined behavior). -/
def tableAt (t : List Chain) (i : Int) : Option Chain :=
  if 0 ≤ i then t.get? i.toNat else none

/-- Writing `table[i] = c` (only reached on indices already read in
bounds). -/
def tableSet (t : List Chain) (i : Int) (c : Chain) : List Chain :=
  t.set i.toNat c

/-- `initmap` (lines 15-30): fresh map with `capacity` empty buckets,
`size = 0`, `numOps = 0`. -/
def initmap (capacity : Nat) : HMap :=
  { table := List.replicate capacity [], size := 0, numOps := 0 }

/-- The bucket index of `get` (line 41) and `del` (line 125):
`key % capacity` on signed C ints, i.e. the truncated remainder. -/
def getDelIndex (key cap : Int) : Int := Int.tmod key cap

/-- The bucket index of `put` (lines 70-73): `u_key % capacity` where
`u_key = (unsigned int) key`; both operands are converted to
`unsigned int`, so for `cap > 0` this is the euclidean remainder of
`key mod 2^32` by `cap`. -/
def putIndex (key cap : Int) : Int := (key % UINT_RANGE) % cap

/-- The scan loop of `get` (lines 46-53): value of the first entry whose
key matches, else `none`. -/
def findInChain (chain : Chain) (key : Int) : Option Int :=
  match chain with
  | [] => none
  | e :: rest => if e.key = key then some e.value else findInChain rest key

/-- `get` (lines 38-58): bump `numOps`, index with the signed remainder,
scan the chain; return the value found or `INT_MAX`. -/
def get (m : HMap) (key : Int) : Option (Int × HMap) :=
  let m1 : HMap := { m with numOps := m.numOps + 1 }
  match tableAt m1.table (getDelIndex key (capacity m1)) with
  | none => none
  | some chain =>
    match findInChain chain key with
    | some v => some (v, m1)
    | none => some (INT_MAX, m1)

/-- The `while (entry->next != NULL)` loop of `put` (lines 92-101) on a
non-empty chain `e :: rest`: the match test `entry->key == key` runs only
while `entry->next` is non-null, so the final entry's key is never
compared; on a match the value is overwritten in place and the old value
returned, otherwise a fresh entry is linked after the final entry
(lines 104-109). -/
def putLoop (e : Entry) (rest : Chain) (key value : Int) : Option Int × Chain :=
  match rest with
  | [] => (none, e :: [⟨key, value⟩])
  | e2 :: rest2 =>
    if e.key = key then
      (some e.value, { e with value := value } :: e2 :: rest2)
    else
      let (r, c) := putLoop e2 rest2 key value
      (r, e :: c)

/-- `put` (lines 67-114): bump `numOps`, index with the unsigned
remainder; an empty bucket gets a fresh head entry (`size`+1, returns
`INT_MAX`); a non-empty bucket runs `putLoop`, incrementing `size` only
when the loop appended. -/
def put (m : HMap) (key value : Int) : Option (Int × HMap) :=
  let m1 : HMap := { m with numOps := m.numOps + 1 }
  let index := putIndex key (capacity m1)
  match tableAt m1.table index with
  | none => none
  | some chain =>
    match chain with
    | [] =>
      some (INT_MAX,
        { m1 with table := tableSet m1.table index [⟨key, value⟩],
                  size := m1.size + 1 })
    | e :: rest =>
      match putLoop e rest key value with
      | (some old, c) =>
        some (old, { m1 with table := tableSet m1.table index c })
      | (none, c) =>
        some (INT_MAX,
          { m1 with table := tableSet m1.table index c, size := m1.size + 1 })

/-- The scan-and-unlink loop of `del` (lines 131-153): unlinking the
first matching node of a singly-linked chain (via the `previous` pointer,
or the bucket head when the match is first) is removing the first match
from the list; returns the removed value and the remaining chain. -/
def delLoop (chain : Chain) (key : Int) : Option Int × Chain :=
  match chain with
  | [] => (none, [])
  | e :: rest =>
    if e.key = key then (some e.value, rest)
    else
      let (r, c) := delLoop rest key
      (r, e :: c)

/-- `del` (lines 122-158): bump `numOps`, index with the signed
remainder, remove the first matching entry (`size`-1, return its value),
or return `INT_MAX` with no mutation. -/
def del (m : HMap) (key : Int) : Option (Int × HMap) :=
  let m1 : HMap := { m with numOps := m.numOps + 1 }
  let index := getDelIndex key (capacity m1)
  match tableAt m1.table index with
  | none => none
  | some chain =>
    match delLoop chain key with
    | (some v, c) =>
      some (v, { m1 with table := tableSet m1.table index c, size := m1.size - 1 })
    | (none, _) => some (INT_MAX, m1)

/-- One API call. -/
inductive Op where
  | opGet (k : Int)
  | opPut (k v : Int)
  | opDel (k : Int)
deriving Repr, DecidableEq

/-- Dispatch one call on the current map state. -/
def runOp (m : HMap) : Op → Option (Int × HMap)
  | .opGet k => get m k
  | .opPut k v => put m k v
  | .opDel k => del m k

/-- Run a sequence of calls, threading the map state; `none` as soon as
one call hits undefined behavior. -/
def runOps (m : HMap) : List Op → Option HMap
  | [] => some m
  | op :: rest =>
    match runOp m op with
    | none => none
    | some (_, m') => runOps m' rest

/-- Run a sequence of calls, also collecting each call's return value. -/
def runOpsTrace (m : HMap) : List Op → Option (List Int × HMap)
  | [] => some ([], m)
  | op :: rest =>
    match runOp m op with
    | none => none
    | some (r, m') =>
      match runOpsTrace m' rest with
      | none => none
      | some (rs, m'') => some (r :: rs, m'')

/-- Number of entries with the given key in a chain. -/
def keyCount (ch : Chain) (key : Int) : Nat :=
  (ch.filter (fun e => e.key = key)).length

/-- Whether some bucket of the map holds the entry `(k, v)`. -/
def containsEntry (m : HMap) (k v : Int) : Bool :=
  m.table.any (fun ch => ch.any (fun e => e.key = k && e.value = v))

/-- The state reached from `initmap 4` by `put(1,10); put(1,20)`: bucket 1
holds the two entries `(1,10)` and `(1,20)` (the second `put` never
compares the key of the final chain entry, so it appends a duplicate). -/
def mDup : HMap := ⟨[[], [⟨1, 10⟩, ⟨1, 20⟩], [], []], 2, 2⟩

/-- The six-call scenario of the specification, on capacity 4. -/
def scenarioOps : List Op :=
  [.opPut 1 10, .opPut 5 20, .opGet 1, .opGet 5, .opDel 1, .opGet 1]

/-- A three-call sequence used to instantiate the operation-count
theorem. -/
def opsW5 : List Op := [.opPut 1 10, .opGet 2, .opDel 1]

/-- The state reached from `initmap 4` by `opsW5`. -/
def mW5 : HMap := ⟨[[], [], [], []], 0, 3⟩

/-- A capacity-4 state holding the single entry `(1,10)` in bucket 1. -/
def mW6 : HMap := ⟨[[], [⟨1, 10⟩], [], []], 1, 0⟩

/-- The state after one `get` on `initmap 4`. -/
def mW7 : HMap := ⟨List.replicate 4 [], 0, 1⟩

/-! ### Helper lemmas about the table array -/

theorem tableAt_isSome (t : List Chain) (i : Int) (h0 : 0 ≤ i) (h1 : i < (t.length : Int)) :
    ∃ ch, tableAt t i = some ch := by
  unfold tableAt
  rw [if_pos h0]
  have hlt : i.toNat < t.length := by omega
  exact ⟨t.get ⟨i.toNat, hlt⟩, by rw [List.get?_eq_get hlt]⟩

theorem tableAt_some_bounds (t : List Chain) (i : Int) (ch : Chain)
    (h : tableAt t i = some ch) : 0 ≤ i ∧ i.toNat < t.length := by
  unfold tableAt at h
  by_cases h0 : 0 ≤ i
  · rw [if_pos h0] at h
    exact ⟨h0, (List.get?_eq_some.mp h).1⟩
  · rw [if_neg h0] at h
    exact absurd h (by simp)

theorem length_tableSet (t : List Chain) (i : Int) (c : Chain) :
    (tableSet t i c).length = t.length := by
  unfold tableSet
  exact List.length_set t i.toNat c

theorem tableAt_tableSet_self (t : List Chain) (i : Int) (c : Chain)
    (h0 : 0 ≤ i) (h1 : i.toNat < t.length) :
    tableAt (tableSet t i c) i = some c := by
  unfold tableAt tableSet
  rw [if_pos h0, List.get?_eq_getElem?]
  exact List.getElem?_set_eq_of_lt c h1

theorem tableAt_replicate (n : Nat) (i : Int) (h0 : 0 ≤ i) (h1 : i < (n : Int)) :
    tableAt (List.replicate n ([] : Chain)) i = some [] := by
  unfold tableAt
  rw [if_pos h0, List.get?_eq_getElem?, List.getElem?_replicate]
  rw [if_pos (by omega)]

theorem capacity_initmap (n : Nat) : capacity (initmap n) = (n : Int) := by
  simp [capacity, initmap]

/-! ### Helper lemmas about chains -/

theorem findInChain_eq_none_iff (ch : Chain) (k : Int) :
    findInChain ch k = none ↔ keyCount ch k = 0 := by
  induction ch with
  | nil => simp [findInChain, keyCount]
  | cons e rest ih =>
    by_cases h : e.key = k
    · simp [findInChain, keyCount, h]
    · simp [findInChain, keyCount, h] at ih ⊢
      exact ih

theorem findInChain_append_none (ch ch' : Chain) (k : Int)
    (h : findInChain ch k = none) :
    findInChain (ch ++ ch') k = findInChain ch' k := by
  induction ch with
  | nil => simp
  | cons e rest ih =>
    simp only [findInChain] at h
    by_cases he : e.key = k
    · rw [if_pos he] at h; exact absurd h (by simp)
    · rw [if_neg he] at h
      simp only [List.cons_append, findInChain, if_neg he]
      exact ih h

theorem keyCount_dropLast_le (ch : Chain) (k : Int) :
    keyCount ch.dropLast k ≤ keyCount ch k := by
  unfold keyCount
  exact ((ch.dropLast_sublist).filter _).length_le

theorem putLoop_no_match (rest : Chain) (e : Entry) (k v : Int)
    (h : findInChain (e :: rest).dropLast k = none) :
    putLoop e rest k v = (none, (e :: rest) ++ [⟨k, v⟩]) := by
  induction rest generalizing e with
  | nil => simp [putLoop]
  | cons e2 rest2 ih =>
    have hd : (e :: e2 :: rest2).dropLast = e :: (e2 :: rest2).dropLast := rfl
    rw [hd] at h
    simp only [findInChain] at h
    by_cases he : e.key = k
    · rw [if_pos he] at h; exact absurd h (by simp)
    · rw [if_neg he] at h
      simp only [putLoop, if_neg he, ih e2 h]
      rfl

theorem putLoop_match (rest : Chain) (e : Entry) (k v : Int)
    (h : findInChain (e :: rest).dropLast k ≠ none) :
    ∃ old c, putLoop e rest k v = (some old, c) ∧ findInChain c k = some v := by
  induction rest generalizing e with
  | nil => simp [List.dropLast, findInChain] at h
  | cons e2 rest2 ih =>
    have hd : (e :: e2 :: rest2).dropLast = e :: (e2 :: rest2).dropLast := rfl
    rw [hd] at h
    simp only [findInChain] at h
    by_cases he : e.key = k
    · refine ⟨e.value, { e with value := v } :: e2 :: rest2, ?_, ?_⟩
      · simp [putLoop, if_pos he]
      · simp [findInChain, he]
    · rw [if_neg he] at h
      obtain ⟨old, c, hpl, hfc⟩ := ih e2 h
      refine ⟨old, e :: c, ?_, ?_⟩
      · simp [putLoop, if_neg he, hpl]
      · simp [findInChain, if_neg he, hfc]

theorem delLoop_of_none (ch : Chain) (k : Int) (h : findInChain ch k = none) :
    delLoop ch k = (none, ch) := by
  induction ch with
  | nil => simp [delLoop]
  | cons e rest ih =>
    simp only [findInChain] at h
    by_cases he : e.key = k
    · rw [if_pos he] at h; exact absurd h (by simp)
    · rw [if_neg he] at h
      simp [delLoop, if_neg he, ih h]

theorem delLoop_of_some (ch : Chain) (k v : Int) (h : findInChain ch k = some v) :
    ∃ c, delLoop ch k = (some v, c) ∧ keyCount c k + 1 = keyCount ch k := by
  induction ch with
  | nil => simp [findInChain] at h
  | cons e rest ih =>
    simp only [findInChain] at h
    by_cases he : e.key = k
    · rw [if_pos he] at h
      injection h with h
      refine ⟨rest, ?_, ?_⟩
      · simp [delLoop, if_pos he, h]
      · simp [keyCount, List.filter_cons, he]
    · rw [if_neg he] at h
      obtain ⟨c, hdl, hkc⟩ := ih h
      refine ⟨e :: c, ?_, ?_⟩
      · simp [delLoop, if_neg he, hdl]
      · simp only [keyCount, List.filter_cons] at hkc ⊢
        simp [he, hkc]

/-! ### Helper lemmas about the operations -/

theorem get_frame_aux (m : HMap) (k r : Int) (m' : HMap)
    (h : get m k = some (r, m')) :
    m'.table = m.table ∧ m'.size = m.size ∧ m'.numOps = m.numOps + 1 := by
  simp only [get] at h
  split at h
  · exact absurd h (by simp)
  · split at h
    · injection h with h
      injection h with h1 h2
      subst h2
      exact ⟨rfl, rfl, rfl⟩
    · injection h with h
      injection h with h1 h2
      subst h2
      exact ⟨rfl, rfl, rfl⟩

theorem put_numOps_aux (m : HMap) (k v r : Int) (m' : HMap)
    (h : put m k v = some (r, m')) : m'.numOps = m.numOps + 1 := by
  simp only [put] at h
  split at h
  · exact absurd h (by simp)
  · split at h
    · injection h with h
      injection h with h1 h2
      subst h2
      rfl
    · split at h
      · injection h with h
        injection h with h1 h2
        subst h2
        rfl
      · injection h with h
        injection h with h1 h2
        subst h2
        rfl

theorem del_numOps_aux (m : HMap) (k r : Int) (m' : HMap)
    (h : del m k = some (r, m')) : m'.numOps = m.numOps + 1 := by
  simp only [del] at h
  split at h
  · exact absurd h (by simp)
  · split at h
    · injection h with h
      injection h with h1 h2
      subst h2
      rfl
    · injection h with h
      injection h with h1 h2
      subst h2
      rfl

theorem runOp_numOps (m : HMap) (op : Op) (r : Int) (m' : HMap)
    (h : runOp m op = some (r, m')) : m'.numOps = m.numOps + 1 := by
  cases op with
  | opGet k => exact (get_frame_aux m k r m' h).2.2
  | opPut k v => exact put_numOps_aux m k v r m' h
  | opDel k => exact del_numOps_aux m k r m' h

theorem runOps_numOps (ops : List Op) (m m' : HMap)
    (h : runOps m ops = some m') : m'.numOps = m.numOps + ops.length := by
  induction ops generalizing m with
  | nil =>
    simp only [runOps] at h
    injection h with h
    subst h
    simp
  | cons op rest ih =>
    simp only [runOps] at h
    cases hop : runOp m op with
    | none => rw [hop] at h; exact absurd h (by simp)
    | some p =>
      obtain ⟨r0, m0⟩ := p
      rw [hop] at h
      have h1 := runOp_numOps m op r0 m0 hop
      have h2 := ih m0 h
      simp only [List.length_cons]
      omega

/-! ### Helper lemmas about the two index computations -/

theorem index_agree_aux (k c : Int) (hk : 0 ≤ k) (hk2 : k ≤ INT_MAX) (hc : 0 < c) :
    getDelIndex k c = putIndex k c := by
  unfold getDelIndex putIndex
  rw [Int.tmod_eq_emod hk (le_of_lt hc)]
  have hlt : k < UINT_RANGE := by
    unfold INT_MAX at hk2
    unfold UINT_RANGE
    omega
  rw [Int.emod_eq_of_lt hk hlt]

theorem getDelIndex_bounds (k c : Int) (hk : 0 ≤ k) (hc : 0 < c) :
    0 ≤ getDelIndex k c ∧ getDelIndex k c < c := by
  unfold getDelIndex
  rw [Int.tmod_eq_emod hk (le_of_lt hc)]
  exact ⟨Int.emod_nonneg k (by omega), Int.emod_lt_of_pos k hc⟩

theorem putIndex_bounds (k c : Int) (hc : 0 < c) :
    0 ≤ putIndex k c ∧ putIndex k c < c := by
  unfold putIndex
  exact ⟨Int.emod_nonneg _ (by omega), Int.emod_lt_of_pos _ hc⟩

/-! ### Unfolding equations stated over `capacity m` -/

theorem get_eq (m : HMap) (k : Int) :
    get m k =
      match tableAt m.table (getDelIndex k (capacity m)) with
      | none => none
      | some chain =>
        match findInChain chain k with
        | some v => some (v, { m with numOps := m.numOps + 1 })
        | none => some (INT_MAX, { m with numOps := m.numOps + 1 }) := rfl

theorem put_eq (m : HMap) (k v : Int) :
    put m k v =
      match tableAt m.table (putIndex k (capacity m)) with
      | none => none
      | some chain =>
        match chain with
        | [] =>
          some (INT_MAX,
            { m with table := tableSet m.table (putIndex k (capacity m)) [⟨k, v⟩],
                     size := m.size + 1, numOps := m.numOps + 1 })
        | e :: rest =>
          match putLoop e rest k v with
          | (some old, c) =>
            some (old, { m with table := tableSet m.table (putIndex k (capacity m)) c,
                                numOps := m.numOps + 1 })
          | (none, c) =>
            some (INT_MAX,
              { m with table := tableSet m.table (putIndex k (capacity m)) c,
                       size := m.size + 1, numOps := m.numOps + 1 }) := rfl

theorem del_eq (m : HMap) (k : Int) :
    del m k =
      match tableAt m.table (getDelIndex k (capacity m)) with
      | none => none
      | some chain =>
        match delLoop chain k with
        | (some v, c) =>
          some (v, { m with table := tableSet m.table (getDelIndex k (capacity m)) c,
                            size := m.size - 1, numOps := m.numOps + 1 })
        | (none, _) => some (INT_MAX, { m with numOps := m.numOps + 1 }) := rfl

/-! ### Definedness and miss behavior -/

theorem get_isSome_of_inbounds (m : HMap) (k : Int)
    (h0 : 0 ≤ getDelIndex k (capacity m))
    (h1 : getDelIndex k (capacity m) < capacity m) :
    (get m k).isSome := by
  obtain ⟨ch, hch⟩ := tableAt_isSome m.table (getDelIndex k (capacity m)) h0 h1
  rw [get_eq, hch]
  cases hf : findInChain ch k <;> simp [hf]

theorem del_isSome_of_inbounds (m : HMap) (k : Int)
    (h0 : 0 ≤ getDelIndex k (capacity m))
    (h1 : getDelIndex k (capacity m) < capacity m) :
    (del m k).isSome := by
  obtain ⟨ch, hch⟩ := tableAt_isSome m.table (getDelIndex k (capacity m)) h0 h1
  rw [del_eq, hch]
  rcases hdl : delLoop ch k with ⟨r, c⟩
  cases r <;> simp [hdl]

theorem get_miss_fresh (n : Nat) (k : Int) (hk : 0 ≤ k) (hn : 0 < n) :
    (get (initmap n) k).map Prod.fst = some INT_MAX := by
  have hn' : (0 : Int) < (n : Int) := by exact_mod_cast hn
  have hb := getDelIndex_bounds k n hk hn'
  rw [get_eq]
  rw [capacity_initmap]
  have hch : tableAt (initmap n).table (getDelIndex k (n : Int)) = some [] := by
    simp only [initmap]
    exact tableAt_replicate n _ hb.1 hb.2
  rw [hch]
  simp [findInChain]

theorem get_after_set (t : List Chain) (k w i s n : Int) (c : Chain)
    (hi0 : 0 ≤ i) (hi1 : i.toNat < t.length)
    (hidx : getDelIndex k (t.length : Int) = i)
    (hfcsome : findInChain c k = some w) :
    (get ⟨tableSet t i c, s, n⟩ k).map Prod.fst = some w := by
  rw [get_eq]
  simp only [capacity]
  rw [length_tableSet, hidx, tableAt_tableSet_self t i c hi0 hi1]
  simp [hfcsome]

theorem get_after_set_none (t : List Chain) (k i s n : Int) (c : Chain)
    (hi0 : 0 ≤ i) (hi1 : i.toNat < t.length)
    (hidx : getDelIndex k (t.length : Int) = i)
    (hfcnone : findInChain c k = none) :
    (get ⟨tableSet t i c, s, n⟩ k).map Prod.fst = some INT_MAX := by
  rw [get_eq]
  simp only [capacity]
  rw [length_tableSet, hidx, tableAt_tableSet_self t i c hi0 hi1]
  simp [hfcnone]

/-! ### Core behavior of `put`-then-`get` and of `del` -/

theorem put_get_aux (m : HMap) (k v : Int) (ch : Chain)
    (hk : 0 ≤ k) (hk2 : k ≤ INT_MAX) (hc : 0 < capacity m)
    (hch : tableAt m.table (putIndex k (capacity m)) = some ch)
    (hcond : 0 < keyCount ch.dropLast k ∨ keyCount ch k = 0) :
    ∃ r m', put m k v = some (r, m') ∧ (get m' k).map Prod.fst = some v := by
  obtain ⟨hi0, hi1⟩ := tableAt_some_bounds m.table _ ch hch
  have hidx : getDelIndex k ((m.table.length : Nat) : Int) = putIndex k (capacity m) := by
    have := index_agree_aux k (capacity m) hk hk2 hc
    simpa [capacity] using this
  cases ch with
  | nil =>
    refine ⟨INT_MAX,
      ⟨tableSet m.table (putIndex k (capacity m)) [⟨k, v⟩], m.size + 1, m.numOps + 1⟩, ?_, ?_⟩
    · rw [put_eq, hch]
    · exact get_after_set m.table k v _ (m.size + 1) (m.numOps + 1) [⟨k, v⟩]
        hi0 hi1 hidx (by simp [findInChain])
  | cons e rest =>
    rcases hcond with hmatch | hzero
    · have hne : findInChain (e :: rest).dropLast k ≠ none := by
        intro hn
        rw [findInChain_eq_none_iff] at hn
        omega
      obtain ⟨old, c, hpl, hfc⟩ := putLoop_match rest e k v hne
      refine ⟨old,
        ⟨tableSet m.table (putIndex k (capacity m)) c, m.size, m.numOps + 1⟩, ?_, ?_⟩
      · rw [put_eq, hch]
        simp [hpl]
      · exact get_after_set m.table k v _ m.size (m.numOps + 1) c hi0 hi1 hidx hfc
    · have hnone : findInChain (e :: rest) k = none := by
        rw [findInChain_eq_none_iff]
        exact hzero
      have hdrop : findInChain (e :: rest).dropLast k = none := by
        rw [findInChain_eq_none_iff]
        have := keyCount_dropLast_le (e :: rest) k
        omega
      have hpl := putLoop_no_match rest e k v hdrop
      refine ⟨INT_MAX,
        ⟨tableSet m.table (putIndex k (capacity m)) ((e :: rest) ++ [⟨k, v⟩]),
          m.size + 1, m.numOps + 1⟩, ?_, ?_⟩
      · rw [put_eq, hch]
        simp [hpl]
      · refine get_after_set m.table k v _ (m.size + 1) (m.numOps + 1) _ hi0 hi1 hidx ?_
        rw [findInChain_append_none _ _ _ hnone]
        simp [findInChain]

theorem del_core (m : HMap) (k v : Int) (ch : Chain)
    (hch : tableAt m.table (getDelIndex k (capacity m)) = some ch) :
    (keyCount ch k = 0 → del m k = some (INT_MAX, { m with numOps := m.numOps + 1 })) ∧
    (findInChain ch k = some v → keyCount ch k ≤ 1 →
      ∃ m', del m k = some (v, m') ∧ m'.size = m.size - 1 ∧ m'.numOps = m.numOps + 1 ∧
        (get m' k).map Prod.fst = some INT_MAX) := by
  obtain ⟨hi0, hi1⟩ := tableAt_some_bounds m.table _ ch hch
  constructor
  · intro hzero
    have hnone : findInChain ch k = none := (findInChain_eq_none_iff ch k).mpr hzero
    have hdl := delLoop_of_none ch k hnone
    rw [del_eq, hch]
    simp [hdl]
  · intro hv huniq
    obtain ⟨c, hdl, hkc⟩ := delLoop_of_some ch k v hv
    refine ⟨⟨tableSet m.table (getDelIndex k (capacity m)) c, m.size - 1, m.numOps + 1⟩,
      ?_, rfl, rfl, ?_⟩
    · rw [del_eq, hch]
      simp [hdl]
    · have hcnone : findInChain c k = none := by
        rw [findInChain_eq_none_iff]
        omega
      exact get_after_set_none m.table k _ (m.size - 1) (m.numOps + 1) c hi0 hi1 rfl hcnone

/-! ### The claims -/

/-- C1: the claim says `put(k, v2)` on a key already present overwrites
in place, returns the prior value and keeps `size`.  The code contradicts
its own doc comment ("@return old associated value, or INT_MAX if the key
was new"): on `initmap 4`, after `put(1,10)` the entry `(1,10)` is the
final chain node, whose key the `put` loop never compares, so `put(1,20)`
returns `INT_MAX` (not 10) and `size` becomes 2 (not 1). -/
theorem put_overwrite_bug :
    (runOpsTrace (initmap 4) [.opPut 1 10, .opPut 1 20]).map (fun p => (p.1, p.2.size)) =
      some ([INT_MAX, INT_MAX], 2) ∧ INT_MAX ≠ (10 : Int) ∧ (2 : Int) ≠ 1 := by decide

/-- C2: the claim says no bucket chain ever holds two entries with equal
keys.  The `put` sequence `put(1,10); put(1,20)` on `initmap 4` is a
counterexample: bucket 1 ends up holding two entries with key 1, because
the `put` loop never compares the final chain entry's key. -/
theorem uniqueness_violated :
    runOps (initmap 4) [.opPut 1 10, .opPut 1 20] = some mDup ∧
    keyCount ((mDup.table.get? 1).getD []) 1 = 2 := by decide

/-- C3: the claim says `put(k, v)` immediately followed by `get(k)`
returns `v` on any map state.  After `put(1,10)` on `initmap 4`, the call
`put(1,20)` appends a duplicate behind the untouched `(1,10)`, and
`get(1)` returns the first match, 10, not 20. -/
theorem roundtrip_violated :
    (runOpsTrace (initmap 4) [.opPut 1 10, .opPut 1 20, .opGet 1]).map Prod.fst =
      some [INT_MAX, INT_MAX, 10] ∧ (10 : Int) ≠ 20 := by decide

/-- C4: `get` and `del` index with the signed remainder (`getDelIndex`),
`put` with the unsigned reinterpretation (`putIndex`); for every
non-negative in-range key the two computations agree, and they do differ
on a negative key (the asymmetry is exactly the sign handling). -/
theorem index_agreement_nonneg (k c : Int) (hk : 0 ≤ k) (hk2 : k ≤ INT_MAX) (hc : 0 < c) :
    getDelIndex k c = putIndex k c ∧ getDelIndex (-1) 4 ≠ putIndex (-1) 4 :=
  ⟨index_agree_aux k c hk hk2 hc, by decide⟩

/-- Witness for C4 at `k = 5`, `c = 4`. -/
theorem index_agreement_nonneg_witness :
    ((0 : Int) ≤ 5 ∧ (5 : Int) ≤ INT_MAX ∧ (0 : Int) < 4) ∧
    (getDelIndex 5 4 = putIndex 5 4 ∧ getDelIndex (-1) 4 ≠ putIndex (-1) 4) :=
  ⟨⟨by decide, by decide, by decide⟩,
    index_agreement_nonneg 5 4 (by decide) (by decide) (by decide)⟩

/-- C5: after any sequence of `N` completed `get`/`put`/`del` calls on a
freshly created map, the operation counter equals `N`: each call bumps
`numOps` exactly once, hits and misses alike. -/
theorem opcount_eq_length (c : Nat) (ops : List Op) (m : HMap)
    (h : runOps (initmap c) ops = some m) : m.numOps = ops.length := by
  have := runOps_numOps ops (initmap c) m h
  simpa [initmap] using this

/-- Witness for C5: three calls (a put, a missed get, a hit del) on
`initmap 4` leave `numOps = 3`. -/
theorem opcount_eq_length_witness :
    runOps (initmap 4) opsW5 = some mW5 ∧ mW5.numOps = opsW5.length :=
  ⟨by decide, opcount_eq_length 4 opsW5 mW5 (by decide)⟩

/-- C6 (amended): on a map state whose bucket chain for `k` (at the
signed index `del` and `get` use, read in bounds) holds at most one entry
with key `k`: if the chain holds no such entry, `del(k)` returns
`INT_MAX` leaving table and `size` unchanged (only `numOps` bumps); if
the first match has value `v`, `del(k)` returns `v`, decrements `size` by
1, and a subsequent `get(k)` reports not-found. -/
theorem del_spec_amended (m : HMap) (k v : Int) (ch : Chain)
    (hch : tableAt m.table (getDelIndex k (capacity m)) = some ch) :
    (keyCount ch k = 0 → del m k = some (INT_MAX, { m with numOps := m.numOps + 1 })) ∧
    (findInChain ch k = some v → keyCount ch k ≤ 1 →
      ∃ m', del m k = some (v, m') ∧ m'.size = m.size - 1 ∧ m'.numOps = m.numOps + 1 ∧
        (get m' k).map Prod.fst = some INT_MAX) :=
  del_core m k v ch hch

/-- Witness for C6 at the single-entry state `mW6` and key 1. -/
theorem del_spec_amended_witness :
    tableAt mW6.table (getDelIndex 1 (capacity mW6)) = some [⟨1, 10⟩] ∧
    ((keyCount [⟨1, 10⟩] 1 = 0 →
        del mW6 1 = some (INT_MAX, { mW6 with numOps := mW6.numOps + 1 })) ∧
     (findInChain [⟨1, 10⟩] 1 = some 10 → keyCount [⟨1, 10⟩] 1 ≤ 1 →
        ∃ m', del mW6 1 = some (10, m') ∧ m'.size = mW6.size - 1 ∧
          m'.numOps = mW6.numOps + 1 ∧ (get m' 1).map Prod.fst = some INT_MAX)) :=
  ⟨by decide, del_spec_amended mW6 1 10 [⟨1, 10⟩] (by decide)⟩

/-- C6 counterexample: the state `mDup`, reachable by
`put(1,10); put(1,20)` on `initmap 4`, contains the entry `(1,20)`, yet
`del(1)` returns 10 (not 20) and the subsequent `get(1)` still returns
20 instead of reporting not-found. -/
theorem del_claim_counterexample :
    runOps (initmap 4) [.opPut 1 10, .opPut 1 20] = some mDup ∧
    containsEntry mDup 1 20 = true ∧
    (del mDup 1).map Prod.fst = some 10 ∧
    (del mDup 1).map Prod.fst ≠ some 20 ∧
    ((del mDup 1).bind (fun p => get p.2 1)).map Prod.fst = some 20 := by decide

/-- C7: whenever `get` completes (its table access is in bounds), it
leaves the table and `size` untouched and bumps `numOps` by exactly one,
on hits and misses alike. -/
theorem get_frame (m : HMap) (k r : Int) (m' : HMap) (h : get m k = some (r, m')) :
    m'.table = m.table ∧ m'.size = m.size ∧ m'.numOps = m.numOps + 1 :=
  get_frame_aux m k r m' h

/-- Witness for C7: a missed `get` on `initmap 4`. -/
theorem get_frame_witness :
    get (initmap 4) 1 = some (INT_MAX, mW7) ∧
    (mW7.table = (initmap 4).table ∧ mW7.size = (initmap 4).size ∧
      mW7.numOps = (initmap 4).numOps + 1) :=
  ⟨by decide, get_frame (initmap 4) 1 INT_MAX mW7 (by decide)⟩

/-- C8 counterexample: the six-call scenario leaves `numOps = 6`, not 5
as the claim states (six operations run, and each bumps the counter). -/
theorem scenario_opcount_counterexample :
    (runOpsTrace (initmap 4) scenarioOps).map (fun p => p.2.numOps) = some 6 ∧
    (runOpsTrace (initmap 4) scenarioOps).map (fun p => p.2.numOps) ≠ some 5 := by decide

/-- C8 (amended): on `initmap 4`, the scenario
`put(1,10); put(5,20); get(1); get(5); del(1); get(1)` returns, in order,
not-found, not-found, 10, 20, 10, not-found, and afterwards `size = 1`
and `numOps = 6` (six calls were made). -/
theorem scenario_amended :
    (runOpsTrace (initmap 4) scenarioOps).map (fun p => (p.1, p.2.size, p.2.numOps)) =
      some ([INT_MAX, INT_MAX, 10, 20, 10, INT_MAX], 1, 6) := by decide

/-- C9 counterexample: for the negative key -1 and capacity 4 the signed
index of `get`/`del` is -1, outside `[0, 4)`, and both operations reach
the out-of-bounds branch of the embedded table access. -/
theorem negative_index_counterexample :
    getDelIndex (-1) 4 = -1 ∧ ¬ (0 ≤ getDelIndex (-1) 4) ∧
    get (initmap 4) (-1) = none ∧ del (initmap 4) (-1) = none := by decide

/-- C9 (amended): for every map of positive capacity and every
non-negative key, the signed bucket index of `get`/`del` lies within
`[0, capacity)` and both table accesses are in bounds (the out-of-bounds
branch is unreachable). -/
theorem index_in_bounds_nonneg (m : HMap) (k : Int) (hk : 0 ≤ k) (hc : 0 < capacity m) :
    0 ≤ getDelIndex k (capacity m) ∧ getDelIndex k (capacity m) < capacity m ∧
    (get m k).isSome ∧ (del m k).isSome := by
  obtain ⟨h0, h1⟩ := getDelIndex_bounds k (capacity m) hk hc
  exact ⟨h0, h1, get_isSome_of_inbounds m k h0 h1, del_isSome_of_inbounds m k h0 h1⟩

/-- Witness for C9 at `k = 7` on `initmap 4`. -/
theorem index_in_bounds_nonneg_witness :
    ((0 : Int) ≤ 7 ∧ 0 < capacity (initmap 4)) ∧
    (0 ≤ getDelIndex 7 (capacity (initmap 4)) ∧
      getDelIndex 7 (capacity (initmap 4)) < capacity (initmap 4) ∧
      (get (initmap 4) 7).isSome ∧ (del (initmap 4) 7).isSome) :=
  ⟨⟨by decide, by decide⟩, index_in_bounds_nonneg (initmap 4) 7 (by decide) (by decide)⟩

/-- C10 counterexample: with key 1 already stored as the final chain
entry (value 5), `put(1, INT_MAX)` appends a duplicate instead of
updating, and the subsequent `get(1)` returns 5, not `INT_MAX` — so the
claim fails as universally stated. -/
theorem intmax_sentinel_counterexample :
    (runOpsTrace (initmap 4) [.opPut 1 5, .opPut 1 INT_MAX, .opGet 1]).map Prod.fst =
      some [INT_MAX, INT_MAX, 5] ∧ (5 : Int) ≠ INT_MAX := by decide

/-- C10 (amended): for a non-negative in-range key whose bucket chain
either lacks the key or holds a match before the final entry,
`put(k, INT_MAX)` completes and a subsequent `get(k)` returns `INT_MAX` —
the very value `get` returns for an absent key on a fresh map of the same
capacity, so the two outcomes are indistinguishable to a caller of
`get`. -/
theorem intmax_storable_amended (m : HMap) (k : Int) (ch : Chain)
    (hk : 0 ≤ k) (hk2 : k ≤ INT_MAX) (hc : 0 < capacity m)
    (hch : tableAt m.table (putIndex k (capacity m)) = some ch)
    (hcond : 0 < keyCount ch.dropLast k ∨ keyCount ch k = 0) :
    (∃ r m', put m k INT_MAX = some (r, m') ∧ (get m' k).map Prod.fst = some INT_MAX) ∧
    (get (initmap (capacity m).toNat) k).map Prod.fst = some INT_MAX := by
  refine ⟨put_get_aux m k INT_MAX ch hk hk2 hc hch hcond, ?_⟩
  refine get_miss_fresh (capacity m).toNat k hk ?_
  simp only [capacity] at hc ⊢
  omega

/-- Witness for C10 at the fresh key 2 on `initmap 4`. -/
theorem intmax_storable_amended_witness :
    ((0 : Int) ≤ 2 ∧ (2 : Int) ≤ INT_MAX ∧ 0 < capacity (initmap 4) ∧
      tableAt (initmap 4).table (putIndex 2 (capacity (initmap 4))) = some [] ∧
      keyCount ([] : Chain) 2 = 0) ∧
    ((∃ r m', put (initmap 4) 2 INT_MAX = some (r, m') ∧
        (get m' 2).map Prod.fst = some INT_MAX) ∧
      (get (initmap (capacity (initmap 4)).toNat) 2).map Prod.fst = some INT_MAX) :=
  ⟨⟨by decide, by decide, by decide, by decide, by decide⟩,
    intmax_storable_amended (initmap 4) 2 [] (by decide) (by decide) (by decide) (by decide)
      (Or.inr (by decide))⟩

end Ts
